import Mathlib

/-!
Verification of the block manager of a userspace memory allocator
(`src/osmem.c`).  The registry of blocks is modelled as the list of
headers in next-chain order: the `next` pointer of a node is the
following list entry (the tail's `next` is null), while the `prev`
pointer is kept as an explicit field of each node, because the source
updates `prev` independently of `next` and can leave it stale.

Machine integers (`size_t`) are modelled as `Nat` with explicit
wrap-around (`% 2^64`) at the arithmetic operations where the C code
can overflow or underflow.
-/

namespace OSMem

/-- `2^64`, the modulus of `size_t` arithmetic. -/
def w64 : Nat := 2 ^ 64

/-- Truncating `size_t` subtraction: `a - b` modulo `2^64`. -/
def sub64 (a b : Nat) : Nat := ((a % w64) + (w64 - b % w64)) % w64

/-- `ALIGN(size) = ((size) + 7) & ~7` on `size_t` (osmem.c line 11). -/
def align64 (n : Nat) : Nat := (((n + 7) % w64) / 8) * 8

/-- Modelled from the spec: `H = align(sizeof(header))`.  The header
`struct block_meta` (declared in the repository's `block_meta.h`, not
under `src/`) holds a `size_t`, an `int` and two pointers; on an LP64
target `sizeof = 32` and `ALIGN(32) = 32`. -/
def H : Nat := 32

/-- `MMAP_THRESHOLD = 128 * 1024` (osmem.c line 9). -/
def mmapThreshold : Nat := 128 * 1024

/-- Modelled from the spec: `PAGE_SIZE` is queried at runtime via
`getpagesize()` (osmem.c line 12); modelled as the canonical 4096. -/
def pageSize : Nat := 4096

/-- `STATUS_FREE / STATUS_ALLOC / STATUS_MAPPED` of `block_meta.h`. -/
inductive Status where
  | FREE
  | ALLOC
  | MAPPED
deriving DecidableEq, Repr

/-- One `struct block_meta` header.  `addr` is the address of the
header itself; the user pointer is `addr + H`.  The `next` pointer is
implicit (the following node of the registry list); `prev` is kept
explicitly because the source does not always keep it in sync. -/
structure Block where
  addr : Nat
  size : Nat
  status : Status
  prev : Option Nat
deriving DecidableEq, Repr

/-- Externally observable effects: the syscalls issued by the
allocator, plus the `memset` performed by `os_calloc`. -/
inductive Event where
  | sbrkE (len : Nat)
  | mmapE (len : Nat)
  | munmapE (addr len : Nat)
  | memsetE (addr len : Nat)
deriving DecidableEq, Repr

/-- The process-wide allocator state: the registry (in next-chain
order), the program break, the next address the kernel will hand to
`mmap` (modelled as a bump pointer in a region disjoint from the
arena), the three global flags of osmem.c lines 15-21, and the trace
of events so far. -/
structure State where
  blocks : List Block
  brk : Nat
  mmapNext : Nat
  preallocHeap : Bool
  callocType : Bool
  reallocType : Bool
  events : List Event
deriving DecidableEq, Repr

/-- A fresh process: empty registry, program break at `base`, all
flags zero.  Anonymous mappings are handed out from a region disjoint
from the arena (the spec requires mapped blocks to lie outside it). -/
def initState (base : Nat) : State :=
  { blocks := [], brk := base, mmapNext := base + 2 ^ 44,
    preallocHeap := false, callocType := false, reallocType := false,
    events := [] }

/-- Index of the node whose header address is `a` (pointer identity:
addresses are unique in reachable states and the C code compares
pointers). -/
def idxOfAddr (bs : List Block) (a : Nat) : Option Nat :=
  bs.findIdx? (fun b => b.addr = a)

/-- The node whose header address is `a`, if linked. -/
def blockAt (bs : List Block) (a : Nat) : Option Block :=
  bs.find? (fun b => b.addr = a)

/-- `insertInList` (osmem.c lines 377-393): append at the tail; the
new node's `prev` is set to the old tail (null when the list was
empty).  Its `next` stays null: it becomes the new tail. -/
def insertInList (bs : List Block) (blk : Block) : List Block :=
  match bs.getLast? with
  | none => [{ blk with prev := none }]
  | some tl => bs ++ [{ blk with prev := some tl.addr }]

/-- Append an event to the trace. -/
def addEvent (st : State) (e : Event) : State :=
  { st with events := st.events ++ [e] }

/-- `allocateSbrk` (osmem.c lines 235-252): move the break up by
`size`, build a header at the old break with payload size
`size - H` (`size_t` subtraction), status `ALLOC`, and append it to
the registry.  Returns the new header's address. -/
def allocateSbrk (st : State) (size : Nat) : State × Nat :=
  let a := st.brk
  let blk : Block := { addr := a, size := sub64 size H,
                       status := Status.ALLOC, prev := none }
  ({ st with brk := st.brk + size,
             blocks := insertInList st.blocks blk,
             events := st.events ++ [Event.sbrkE size] }, a)

/-- `allocateMmap` (osmem.c lines 216-233): obtain a fresh mapping of
`size` bytes, build a header at its start whose `size` is the whole
mapping length (header included), status `MAPPED`, and append it to
the registry.  Returns the new header's address. -/
def allocateMmap (st : State) (size : Nat) : State × Nat :=
  let a := st.mmapNext
  let blk : Block := { addr := a, size := size,
                       status := Status.MAPPED, prev := none }
  ({ st with mmapNext := st.mmapNext + size,
             blocks := insertInList st.blocks blk,
             events := st.events ++ [Event.mmapE size] }, a)

/-- `mergeFreeBlocks` with `reallocType == 0` (osmem.c lines 288-298):
sweep the chain once; whenever two consecutive nodes are both `FREE`,
fold the second into the first (`size += second.size + H`, bypass the
second) and stay at the first to take chains.  The node after the
absorbed one keeps its (now stale) `prev` field, as in the source. -/
def mergeGlobalFuel : Nat → List Block → List Block
  | 0, bs => bs
  | _ + 1, [] => []
  | _ + 1, [b] => [b]
  | fuel + 1, a :: b :: rest =>
    if a.status = Status.FREE ∧ b.status = Status.FREE then
      mergeGlobalFuel fuel ({ a with size := a.size + b.size + H } :: rest)
    else
      a :: mergeGlobalFuel fuel (b :: rest)

/-- The sweep of `mergeFreeBlocks` on the whole chain.  Every loop
iteration either absorbs a node or advances, so the list length
bounds the iteration count and serves as fuel. -/
def mergeGlobal (bs : List Block) : List Block :=
  mergeGlobalFuel bs.length bs

/-- `mergeFreeBlocks` with `reallocType == 1` (osmem.c lines 279-285):
absorb the immediate successor of the node at index `i` when that
successor is `FREE`; do not sweep further. -/
def mergeReallocAt (bs : List Block) (i : Nat) : List Block :=
  match bs[i]?, bs[i+1]? with
  | some b, some nx =>
    if nx.status = Status.FREE then
      (bs.set i { b with size := b.size + nx.size + H }).eraseIdx (i+1)
    else bs
  | _, _ => bs

/-- The walk of osmem.c lines 309-317: the best-fit candidate, as a
pair (index, node).  A node is a candidate when it is `FREE` and its
size is at least `req`; a later candidate replaces the current best
only when strictly smaller, so ties go to the first encountered. -/
def findBestAux (req : Nat) : List Block → Nat → Option (Nat × Block) →
    Option (Nat × Block)
  | [], _, best => best
  | b :: rest, i, best =>
    let best' :=
      if req ≤ b.size ∧ b.status = Status.FREE then
        match best with
        | none => some (i, b)
        | some (j, c) => if b.size < c.size then some (i, b) else some (j, c)
      else best
    findBestAux req rest (i + 1) best'

/-- `searchAndSplit` (osmem.c lines 301-338).  `size` is the total
budget (`align(user) + H`); `requiredSize = size - H` (`size_t`
subtraction).  The walk picks the best fit; if found it is marked
`ALLOC` and, when `bestFit.size ≥ ALIGN(1) + size`, a new `FREE` node
is carved at `bestFit.addr + size` with size `bestFit.size - size`,
linked in after the chosen node with `prev` pointing to it — the old
successor's `prev` is not updated, as in the source.  Returns the new
registry and the chosen header's address (null on miss). -/
def searchAndSplit (bs : List Block) (size : Nat) : List Block × Option Nat :=
  let requiredSize := sub64 size H
  match findBestAux requiredSize bs 0 none with
  | none => (bs, none)
  | some (j, c) =>
    if align64 1 + size ≤ c.size then
      let newBlock : Block := { addr := c.addr + size, size := c.size - size,
                                status := Status.FREE, prev := some c.addr }
      let chosen : Block := { c with status := Status.ALLOC,
                                     size := requiredSize }
      (bs.take j ++ chosen :: newBlock :: bs.drop (j+1), some c.addr)
    else
      (bs.set j { c with status := Status.ALLOC }, some c.addr)

/-- `extendHeap` (osmem.c lines 340-375).  `start` is the node the
caller hands in through the `head` double pointer: the true registry
head from `tryAll`, the block itself on the realloc-grow-tail path
(the aliasing quirk of osmem.c line 195).  In realloc mode, when the
start node is the tail, the break grows by `size - start.size` and the
node's payload becomes `size`.  Otherwise the walk reaches the tail
and, when the tail is `FREE`, the break grows by
`size - H - tail.size` and the tail's payload becomes `size - H`
(all `size_t` subtractions).  Returns the extended node's address or
null.  A null/garbage `start` (the C code would dereference it) is
modelled as failure; the modelled callers never pass one. -/
def extendHeap (st : State) (start : Option Nat) (size : Nat)
    (reallocSet : Bool) : State × Option Nat :=
  match start with
  | none => (st, none)
  | some s =>
    match idxOfAddr st.blocks s with
    | none => (st, none)
    | some i =>
      match st.blocks[i]? with
      | none => (st, none)
      | some tmp =>
        if reallocSet ∧ i + 1 = st.blocks.length then
          let delta := sub64 size tmp.size
          ({ st with brk := st.brk + delta,
                     blocks := st.blocks.set i
                       { tmp with size := size, status := Status.ALLOC },
                     events := st.events ++ [Event.sbrkE delta] },
           some tmp.addr)
        else
          match st.blocks.getLast? with
          | none => (st, none)
          | some tl =>
            if tl.status = Status.FREE then
              let delta := sub64 (sub64 size H) tl.size
              ({ st with brk := st.brk + delta,
                         blocks := st.blocks.set (st.blocks.length - 1)
                           { tl with size := sub64 size H,
                                     status := Status.ALLOC },
                         events := st.events ++ [Event.sbrkE delta] },
               some tl.addr)
            else (st, none)

/-- Address of the registry head, or null when empty. -/
def headAddr (bs : List Block) : Option Nat := bs.head?.map Block.addr

/-- `tryAll` (osmem.c lines 254-269): coalesce globally, then best-fit
search with split, then on miss try to extend the last block. -/
def tryAll (st : State) (size : Nat) : State × Option Nat :=
  let st1 := { st with blocks := mergeGlobal st.blocks }
  let sr := searchAndSplit st1.blocks size
  let st2 := { st1 with blocks := sr.1 }
  match sr.2 with
  | some a => (st2, some a)
  | none => extendHeap st2 (headAddr st2.blocks) size false

/-- Set the `prev` field of the first node of a list (the write
`del->next->prev = del->prev` of osmem.c line 452, applied to the
suffix starting at the successor). -/
def updPrevHd (pa : Option Nat) : List Block → List Block
  | [] => []
  | b :: rest => { b with prev := pa } :: rest

/-- `deleteBlock` (osmem.c lines 440-457), interpreted on the
next-chain representation.  The three writes: fix the head when the
deleted node is first; set the successor's `prev` to the deleted
node's `prev` field; set `next` of the node *at the address stored in
the deleted node's `prev` field* to the deleted node's successor.
When that `prev` field holds the true predecessor this unlinks the
node; when it is null or names a node no longer in the chain, the
node stays linked (the source bug is reproduced); when it names an
earlier live node, the chain jumps from that node to the successor.
A registry head always has `prev = null` (every insertion and removal
keeps it so), so the head case performs only the head fix. -/
def deleteBlock (bs : List Block) (d : Nat) : List Block :=
  match idxOfAddr bs d with
  | none => bs
  | some i =>
    match bs[i]? with
    | none => bs
    | some del =>
      let bs1 := bs.take (i+1) ++ updPrevHd del.prev (bs.drop (i+1))
      if i = 0 then bs1.drop 1
      else
        match del.prev with
        | none => bs1
        | some pa =>
          match idxOfAddr bs1 pa with
          | none => bs1
          | some j => bs1.take (j+1) ++ bs1.drop (i+1)

/-- `os_malloc` (osmem.c lines 35-93).  Returns the new state and the
user pointer (`header + H`), null when `size == 0`.  The threshold is
`PAGE_SIZE` when `callocType` is set, `MMAP_THRESHOLD` otherwise; at
or above it the request is served by `mmap`, below it by the
preallocated arena (first use preallocates `MMAP_THRESHOLD` bytes and
returns the whole slab), reusing free blocks through `tryAll` and
falling back to a fresh `sbrk` of the exact total. -/
def os_malloc (st : State) (size : Nat) : State × Option Nat :=
  let payloadAndMeta := (align64 size + H) % w64
  if size = 0 then (st, none)
  else if st.callocType then
    if pageSize ≤ payloadAndMeta then
      let r := allocateMmap st payloadAndMeta
      (r.1, some (r.2 + H))
    else if st.preallocHeap = false then
      let r := allocateSbrk { st with preallocHeap := true } mmapThreshold
      (r.1, some (r.2 + H))
    else
      let r := tryAll st payloadAndMeta
      match r.2 with
      | some a => (r.1, some (a + H))
      | none =>
        let r2 := allocateSbrk r.1 payloadAndMeta
        (r2.1, some (r2.2 + H))
  else
    if mmapThreshold ≤ payloadAndMeta then
      let r := allocateMmap st payloadAndMeta
      (r.1, some (r.2 + H))
    else if st.preallocHeap = false then
      let r := allocateSbrk { st with preallocHeap := true } mmapThreshold
      (r.1, some (r.2 + H))
    else
      let r := tryAll st payloadAndMeta
      match r.2 with
      | some a => (r.1, some (a + H))
      | none =>
        let r2 := allocateSbrk r.1 payloadAndMeta
        (r2.1, some (r2.2 + H))

/-- `os_free` (osmem.c lines 95-116).  Null is a no-op.  The header is
recovered at `ptr - H`; an `ALLOC` block is marked `FREE` (no
coalescing); a `MAPPED` block is marked, unlinked, and `munmap`ed
with length `block.size`; a `FREE` block is left alone.  A pointer
whose header is not in the registry is undefined behavior in the
source and is modelled as a no-op. -/
def os_free (st : State) (ptr : Option Nat) : State :=
  match ptr with
  | none => st
  | some p =>
    let a := p - H
    match blockAt st.blocks a with
    | none => st
    | some b =>
      if b.status = Status.ALLOC then
        { st with blocks :=
            st.blocks.map (fun x =>
              if x.addr = a then { x with status := Status.FREE } else x) }
      else if b.status = Status.MAPPED then
        { st with blocks := deleteBlock st.blocks a,
                  events := st.events ++ [Event.munmapE a b.size] }
      else st

/-- `os_calloc` (osmem.c lines 118-140): zero counts give null; the
byte count is `ALIGN(nmemb * size)` with the product taken in
`size_t` (wrap-around, no overflow check); the `callocType` flag is
set around the nested `os_malloc` and cleared on both exits; on
success the payload is zeroed for `callocSize` bytes (recorded as a
`memsetE` event). -/
def os_calloc (st : State) (nmemb size : Nat) : State × Option Nat :=
  if nmemb = 0 ∨ size = 0 then (st, none)
  else
    let callocSize := align64 ((nmemb * size) % w64)
    let r := os_malloc { st with callocType := true } callocSize
    match r.2 with
    | some p =>
      ({ addEvent r.1 (Event.memsetE p callocSize) with callocType := false },
       some p)
    | none => ({ r.1 with callocType := false }, none)

/-- `splitRealloc` (osmem.c lines 395-412): when the block at `a` can
still hold `ALIGN(1)` bytes of payload after carving `size + H`,
insert a new `FREE` node at `a + size + H` with the residual size,
its `prev` pointing at the block (the old successor's `prev` is not
updated, as in the source), and shrink the block to `size`.  The
block's address is always the result (the C function returns
`memBlock` unconditionally). -/
def splitRealloc (bs : List Block) (a : Nat) (size : Nat) : List Block :=
  match idxOfAddr bs a with
  | none => bs
  | some i =>
    match bs[i]? with
    | none => bs
    | some c =>
      if align64 1 + (size + H) ≤ c.size then
        let newBlock : Block := { addr := c.addr + size + H,
                                  size := c.size - (size + H),
                                  status := Status.FREE,
                                  prev := some c.addr }
        bs.take i ++ { c with size := size } :: newBlock :: bs.drop (i+1)
      else bs

/-- `extendRealloc` (osmem.c lines 414-438): walk from the head to the
block (defensive revalidation), absorb its immediate `FREE` successor
(`reallocType` is set around that call and cleared on every path of
this function), and if the grown size reaches `size`, split back down
to `size` and succeed; otherwise fail. -/
def extendRealloc (st : State) (a : Nat) (size : Nat) : State × Option Nat :=
  match idxOfAddr st.blocks a with
  | none => (st, none)
  | some i =>
    let bs1 := mergeReallocAt st.blocks i
    match bs1[i]? with
    | none => ({ st with blocks := bs1, reallocType := false }, none)
    | some tmp =>
      if size ≤ tmp.size then
        ({ st with blocks := splitRealloc bs1 a size, reallocType := false },
         some a)
      else
        ({ st with blocks := bs1, reallocType := false }, none)

/-- `os_realloc` (osmem.c lines 142-214).  Size zero frees; a null
pointer behaves as `os_malloc`; a `FREE` block yields null; equal
aligned payload returns the pointer unchanged; a `MAPPED` block is
reallocated fresh and the old mapping freed; an `ALLOC` block shrinks
in place via `splitRealloc`, or grows in place via successor
coalescing (`extendRealloc`) when it has a successor or via tail
extension (`extendHeap` in realloc mode, which leaves `reallocType`
set on success, as in the source) when it is the tail, falling back
to allocate-copy-free. -/
def os_realloc (st : State) (ptr : Option Nat) (size : Nat) :
    State × Option Nat :=
  let alignedNewPayload := align64 size
  if size = 0 then (os_free st ptr, none)
  else
    match ptr with
    | none => os_malloc st size
    | some p =>
      let a := p - H
      match blockAt st.blocks a with
      | none => (st, none)
      | some b =>
        if b.status = Status.FREE then (st, none)
        else if alignedNewPayload = b.size then (st, some p)
        else if b.status = Status.MAPPED then
          let r := os_malloc st size
          let st2 := os_free r.1 (some p)
          (st2, r.2)
        else
          if alignedNewPayload < b.size then
            ({ st with blocks := splitRealloc st.blocks a alignedNewPayload },
             some p)
          else
            let grown :=
              match idxOfAddr st.blocks a with
              | none => (st, none)
              | some i =>
                if i + 1 < st.blocks.length then
                  extendRealloc st a alignedNewPayload
                else
                  extendHeap { st with reallocType := true } (some a)
                    alignedNewPayload true
            match grown.2 with
            | some ra => (grown.1, some (ra + H))
            | none =>
              let st1 := { grown.1 with reallocType := false }
              let r := os_malloc st1 size
              let st2 := os_free r.1 (some p)
              (st2, r.2)

/-- Number of `SBRK` syscalls in a trace. -/
def sbrkCount (evs : List Event) : Nat :=
  evs.countP (fun e => match e with | Event.sbrkE _ => true | _ => false)

/-- `prevLinkedB pa bs`: the first node of `bs` has `prev = pa` and
every later node's `prev` names its predecessor's address. -/
def prevLinkedB : Option Nat → List Block → Bool
  | _, [] => true
  | pa, b :: rest => (b.prev = pa) && prevLinkedB (some b.addr) rest

/-- The doubly-linked-list invariant on the registry: the head has
`prev = null` and, for every node `x` with a successor, the
successor's `prev` points back at `x`.  (The tail's `next = null` and
the chain shape of `next` hold by construction in this
representation.) -/
def wellFormedPrev (bs : List Block) : Prop := prevLinkedB none bs = true

/-- Whether no two registry-adjacent nodes are both `FREE`. -/
def noAdjFreeB : List Block → Bool
  | [] => true
  | [_] => true
  | a :: b :: rest =>
    !(a.status = Status.FREE ∧ b.status = Status.FREE) && noAdjFreeB (b :: rest)

/-- No two registry-adjacent nodes are both `FREE`. -/
def noAdjFree (bs : List Block) : Prop := noAdjFreeB bs = true

instance : DecidablePred wellFormedPrev := fun bs =>
  decEq (prevLinkedB none bs) true

instance : DecidablePred noAdjFree := fun bs =>
  decEq (noAdjFreeB bs) true

theorem sub64_eq_sub {a b : Nat} (hb : b ≤ a) (ha : a < w64) :
    sub64 a b = a - b := by
  unfold sub64
  have hbw : b < w64 := lt_of_le_of_lt hb ha
  rw [Nat.mod_eq_of_lt ha, Nat.mod_eq_of_lt hbw]
  have h1 : a + (w64 - b) = w64 + (a - b) := by omega
  rw [h1, Nat.add_mod_left, Nat.mod_eq_of_lt (by omega)]

theorem mmapThreshold_lt_w64 : mmapThreshold < w64 := by decide

theorem set_len_append {α : Type} (l1 l2 : List α) (c v : α) :
    (l1 ++ c :: l2).set l1.length v = l1 ++ v :: l2 := by
  induction l1 with
  | nil => simp
  | cons x xs ih => simp [List.set, ih]

theorem drop_len_succ_append {α : Type} (l1 l2 : List α) (c : α) :
    (l1 ++ c :: l2).drop (l1.length + 1) = l2 := by
  rw [show l1 ++ c :: l2 = (l1 ++ [c]) ++ l2 by simp,
    show l1.length + 1 = (l1 ++ [c]).length by simp]
  exact List.drop_left _ _

theorem take_len_append {α : Type} (l1 l2 : List α) (c : α) :
    (l1 ++ c :: l2).take l1.length = l1 :=
  List.take_left _ _

theorem findBestAux_acc_ne_none (req : Nat) (bs : List Block) :
    ∀ (i j : Nat) (c : Block), findBestAux req bs i (some (j, c)) ≠ none := by
  induction bs with
  | nil => intro i j c h; exact Option.noConfusion h
  | cons y rest ih =>
    intro i j c
    simp only [findBestAux]
    by_cases hy : req ≤ y.size ∧ y.status = Status.FREE
    · simp only [if_pos hy]
      by_cases hlt : y.size < c.size
      · simpa [hlt] using ih (i+1) i y
      · simpa [hlt] using ih (i+1) j c
    · simpa [hy] using ih (i+1) j c

theorem findBestAux_none_all (req : Nat) (bs : List Block) :
    ∀ i, findBestAux req bs i none = none →
      ∀ b ∈ bs, ¬(req ≤ b.size ∧ b.status = Status.FREE) := by
  induction bs with
  | nil => simp
  | cons y rest ih =>
    intro i h
    simp only [findBestAux] at h
    by_cases hy : req ≤ y.size ∧ y.status = Status.FREE
    · rw [if_pos hy] at h
      exact absurd h (findBestAux_acc_ne_none req rest (i+1) i y)
    · rw [if_neg hy] at h
      intro b hb
      rcases List.mem_cons.mp hb with rfl | hbr
      · exact hy
      · exact ih (i+1) h b hbr

/-- Characterization of the best-fit walk when it starts from a
candidate `c0` found at index `j0`: either the accumulator survives
(and beats every eligible node of the remainder), or the result is an
eligible node of the remainder, strictly smaller than `c0` and than
every eligible node before it, and no larger than every eligible
node. -/
theorem findBestAux_acc_spec (req : Nat) (bs : List Block) :
    ∀ (i j0 : Nat) (c0 : Block) (j : Nat) (c : Block),
      findBestAux req bs i (some (j0, c0)) = some (j, c) →
      (j = j0 ∧ c = c0 ∧
        ∀ b ∈ bs, req ≤ b.size ∧ b.status = Status.FREE → c0.size ≤ b.size)
      ∨ (∃ l1 l2, bs = l1 ++ c :: l2 ∧ j = i + l1.length ∧
          (req ≤ c.size ∧ c.status = Status.FREE) ∧ c.size < c0.size ∧
          (∀ b ∈ bs, req ≤ b.size ∧ b.status = Status.FREE →
            c.size ≤ b.size) ∧
          (∀ b ∈ l1, req ≤ b.size ∧ b.status = Status.FREE →
            c.size < b.size)) := by
  induction bs with
  | nil =>
    intro i j0 c0 j c h
    simp only [findBestAux] at h
    obtain ⟨h1, h2⟩ : j0 = j ∧ c0 = c := by
      have := Option.some.inj h
      exact ⟨congrArg Prod.fst this, congrArg Prod.snd this⟩
    exact Or.inl ⟨h1.symm, h2.symm, by simp⟩
  | cons y rest ih =>
    intro i j0 c0 j c h
    simp only [findBestAux] at h
    by_cases hy : req ≤ y.size ∧ y.status = Status.FREE
    · rw [if_pos hy] at h
      by_cases hlt : y.size < c0.size
      · rw [if_pos hlt] at h
        rcases ih (i+1) i y j c h with ⟨hj, hc, hmin⟩ |
          ⟨l1, l2, hrest, hj, helig, hlt2, hall, hstrict⟩
        · subst hc
          refine Or.inr ⟨[], rest, by simp, by simpa using hj, hy, hlt, ?_, by simp⟩
          intro b hb hel
          rcases List.mem_cons.mp hb with rfl | hbr
          · exact le_refl _
          · exact hmin b hbr hel
        · refine Or.inr ⟨y :: l1, l2, by simp [hrest], by rw [List.length_cons]; omega,
            helig, lt_trans hlt2 hlt, ?_, ?_⟩
          · intro b hb hel
            rcases List.mem_cons.mp hb with rfl | hbr
            · exact le_of_lt hlt2
            · exact hall b hbr hel
          · intro b hb hel
            rcases List.mem_cons.mp hb with rfl | hbr
            · exact hlt2
            · exact hstrict b hbr hel
      · rw [if_neg hlt] at h
        rcases ih (i+1) j0 c0 j c h with ⟨hj, hc, hmin⟩ |
          ⟨l1, l2, hrest, hj, helig, hlt2, hall, hstrict⟩
        · refine Or.inl ⟨hj, hc, ?_⟩
          intro b hb hel
          rcases List.mem_cons.mp hb with rfl | hbr
          · exact Nat.le_of_not_lt hlt
          · exact hmin b hbr hel
        · refine Or.inr ⟨y :: l1, l2, by simp [hrest], by rw [List.length_cons]; omega,
            helig, hlt2, ?_, ?_⟩
          · intro b hb hel
            rcases List.mem_cons.mp hb with rfl | hbr
            · exact le_of_lt (lt_of_lt_of_le hlt2 (Nat.le_of_not_lt hlt))
            · exact hall b hbr hel
          · intro b hb hel
            rcases List.mem_cons.mp hb with rfl | hbr
            · exact lt_of_lt_of_le hlt2 (Nat.le_of_not_lt hlt)
            · exact hstrict b hbr hel
    · rw [if_neg hy] at h
      rcases ih (i+1) j0 c0 j c h with ⟨hj, hc, hmin⟩ |
        ⟨l1, l2, hrest, hj, helig, hlt2, hall, hstrict⟩
      · refine Or.inl ⟨hj, hc, ?_⟩
        intro b hb hel
        rcases List.mem_cons.mp hb with rfl | hbr
        · exact absurd hel hy
        · exact hmin b hbr hel
      · refine Or.inr ⟨y :: l1, l2, by simp [hrest], by rw [List.length_cons]; omega,
          helig, hlt2, ?_, ?_⟩
        · intro b hb hel
          rcases List.mem_cons.mp hb with rfl | hbr
          · exact absurd hel hy
          · exact hall b hbr hel
        · intro b hb hel
          rcases List.mem_cons.mp hb with rfl | hbr
          · exact absurd hel hy
          · exact hstrict b hbr hel

/-- Characterization of the full best-fit walk: on success the result
is an eligible node, no eligible node is smaller, and every eligible
node before it is strictly larger (first-encountered tie-break). -/
theorem findBestAux_start_spec (req : Nat) (bs : List Block) :
    ∀ (i j : Nat) (c : Block), findBestAux req bs i none = some (j, c) →
      ∃ l1 l2, bs = l1 ++ c :: l2 ∧ j = i + l1.length ∧
        (req ≤ c.size ∧ c.status = Status.FREE) ∧
        (∀ b ∈ bs, req ≤ b.size ∧ b.status = Status.FREE →
          c.size ≤ b.size) ∧
        (∀ b ∈ l1, req ≤ b.size ∧ b.status = Status.FREE →
          c.size < b.size) := by
  induction bs with
  | nil => intro i j c h; exact Option.noConfusion h
  | cons y rest ih =>
    intro i j c h
    simp only [findBestAux] at h
    by_cases hy : req ≤ y.size ∧ y.status = Status.FREE
    · rw [if_pos hy] at h
      rcases findBestAux_acc_spec req rest (i+1) i y j c h with ⟨hj, hc, hmin⟩ |
        ⟨l1, l2, hrest, hj, helig, hlt2, hall, hstrict⟩
      · subst hc
        refine ⟨[], rest, by simp, by simpa using hj, hy, ?_, by simp⟩
        intro b hb hel
        rcases List.mem_cons.mp hb with rfl | hbr
        · exact le_refl _
        · exact hmin b hbr hel
      · refine ⟨y :: l1, l2, by simp [hrest], by rw [List.length_cons]; omega, helig,
          ?_, ?_⟩
        · intro b hb hel
          rcases List.mem_cons.mp hb with rfl | hbr
          · exact le_of_lt hlt2
          · exact hall b hbr hel
        · intro b hb hel
          rcases List.mem_cons.mp hb with rfl | hbr
          · exact hlt2
          · exact hstrict b hbr hel
    · rw [if_neg hy] at h
      obtain ⟨l1, l2, hrest, hj, helig, hall, hstrict⟩ := ih (i+1) j c h
      refine ⟨y :: l1, l2, by simp [hrest], by rw [List.length_cons]; omega, helig,
        ?_, ?_⟩
      · intro b hb hel
        rcases List.mem_cons.mp hb with rfl | hbr
        · exact absurd hel hy
        · exact hall b hbr hel
      · intro b hb hel
        rcases List.mem_cons.mp hb with rfl | hbr
        · exact absurd hel hy
        · exact hstrict b hbr hel

theorem noAdjFreeB_cons_eq (x : Block) (t : List Block) :
    noAdjFreeB (x :: t) =
      ((match t.head? with
        | none => true
        | some y => !(x.status = Status.FREE ∧ y.status = Status.FREE)) &&
       noAdjFreeB t) := by
  cases t with
  | nil => rfl
  | cons y rest => rfl

theorem noAdjFreeB_of_cons {x : Block} {t : List Block}
    (h : noAdjFreeB (x :: t) = true) : noAdjFreeB t = true := by
  rw [noAdjFreeB_cons_eq, Bool.and_eq_true] at h
  exact h.2

theorem noAdjFreeB_of_append {l t : List Block}
    (h : noAdjFreeB (l ++ t) = true) : noAdjFreeB t = true := by
  induction l with
  | nil => exact h
  | cons x l ih => exact ih (noAdjFreeB_of_cons h)

theorem mergeGlobalFuel_cons_shape (fuel : Nat) :
    ∀ (x : Block) (rest : List Block),
      ∃ y rest2, mergeGlobalFuel fuel (x :: rest) = y :: rest2 ∧
        y.status = x.status := by
  induction fuel with
  | zero => intro x rest; exact ⟨x, rest, rfl, rfl⟩
  | succ fuel ih =>
    intro x rest
    cases rest with
    | nil => exact ⟨x, [], rfl, rfl⟩
    | cons b rest2 =>
      simp only [mergeGlobalFuel]
      by_cases hc : x.status = Status.FREE ∧ b.status = Status.FREE
      · rw [if_pos hc]
        obtain ⟨y, r2, heq, hys⟩ :=
          ih { x with size := x.size + b.size + H } rest2
        exact ⟨y, r2, heq, hys⟩
      · rw [if_neg hc]
        exact ⟨x, _, rfl, rfl⟩

theorem mergeGlobalFuel_noAdj :
    ∀ (fuel : Nat) (bs : List Block), bs.length ≤ fuel →
      noAdjFreeB (mergeGlobalFuel fuel bs) = true := by
  intro fuel
  induction fuel with
  | zero =>
    intro bs h
    have : bs = [] := List.length_eq_zero.mp (Nat.le_zero.mp h)
    subst this
    rfl
  | succ fuel ih =>
    intro bs h
    match bs with
    | [] => rfl
    | [b] => rfl
    | a :: b :: rest =>
      simp only [mergeGlobalFuel]
      have hlen : (b :: rest).length ≤ fuel := by
        simp at h ⊢; omega
      by_cases hc : a.status = Status.FREE ∧ b.status = Status.FREE
      · rw [if_pos hc]
        apply ih
        simp at h ⊢; omega
      · rw [if_neg hc]
        obtain ⟨y, rest2, heq, hys⟩ := mergeGlobalFuel_cons_shape fuel b rest
        rw [heq, noAdjFreeB_cons_eq]
        have h2 := ih (b :: rest) hlen
        rw [heq] at h2
        simp only [List.head?_cons, Bool.and_eq_true]
        refine ⟨?_, h2⟩
        simp only [Bool.not_eq_true', decide_eq_false_iff_not]
        intro hcon
        exact hc ⟨hcon.1, hys ▸ hcon.2⟩

theorem mergeGlobal_noAdj (bs : List Block) :
    noAdjFreeB (mergeGlobal bs) = true :=
  mergeGlobalFuel_noAdj bs.length bs (le_refl _)

theorem noAdjFreeB_set_nonfree :
    ∀ (bs : List Block) (i : Nat) (v : Block),
      noAdjFreeB bs = true → v.status ≠ Status.FREE →
      noAdjFreeB (bs.set i v) = true := by
  intro bs
  induction bs with
  | nil => intro i v _ _; simp [noAdjFreeB]
  | cons x rest ih =>
    intro i v h hv
    cases i with
    | zero =>
      rw [List.set_cons_zero, noAdjFreeB_cons_eq, Bool.and_eq_true]
      refine ⟨?_, noAdjFreeB_of_cons h⟩
      cases hhd : rest.head? with
      | none => rfl
      | some y => simp [hv]
    | succ i =>
      rw [List.set_cons_succ, noAdjFreeB_cons_eq, Bool.and_eq_true]
      refine ⟨?_, ih i v (noAdjFreeB_of_cons h) hv⟩
      cases rest with
      | nil => rfl
      | cons y rest2 =>
        cases i with
        | zero =>
          simp only [List.set_cons_zero, List.head?_cons]
          simp [hv]
        | succ i2 =>
          simp only [List.set_cons_succ, List.head?_cons]
          rw [noAdjFreeB_cons_eq] at h
          simp only [List.head?_cons, Bool.and_eq_true] at h
          exact h.1

theorem noAdjFreeB_append_single {bs : List Block} {v : Block}
    (h : noAdjFreeB bs = true) (hv : v.status ≠ Status.FREE) :
    noAdjFreeB (bs ++ [v]) = true := by
  induction bs with
  | nil => rfl
  | cons x rest ih =>
    rw [List.cons_append, noAdjFreeB_cons_eq, Bool.and_eq_true]
    refine ⟨?_, ih (noAdjFreeB_of_cons h)⟩
    cases rest with
    | nil => simp [hv]
    | cons y rest2 =>
      simp only [List.cons_append, List.head?_cons]
      rw [noAdjFreeB_cons_eq] at h
      simp only [List.head?_cons, Bool.and_eq_true] at h
      exact h.1

theorem insertInList_noAdj {bs : List Block} {blk : Block}
    (h : noAdjFreeB bs = true) (hv : blk.status ≠ Status.FREE) :
    noAdjFreeB (insertInList bs blk) = true := by
  unfold insertInList
  cases hgl : bs.getLast? with
  | none => rfl
  | some tl => exact noAdjFreeB_append_single h hv

/-- Replacing one node of a chain by a nonempty run that starts with
a non-`FREE` node and is itself adjacency-clean against the suffix
keeps the chain adjacency-clean. -/
theorem noAdjFreeB_mid_replace :
    ∀ (l1 : List Block) (c : Block) (l2 : List Block) (m0 : Block)
      (mrest : List Block),
      noAdjFreeB (l1 ++ c :: l2) = true →
      noAdjFreeB ((m0 :: mrest) ++ l2) = true →
      m0.status ≠ Status.FREE →
      noAdjFreeB (l1 ++ (m0 :: mrest) ++ l2) = true := by
  intro l1
  induction l1 with
  | nil =>
    intro c l2 m0 mrest _ hmid _
    simpa using hmid
  | cons x l1 ih =>
    intro c l2 m0 mrest h hmid hm0
    simp only [List.cons_append]
    rw [noAdjFreeB_cons_eq, Bool.and_eq_true]
    refine ⟨?_, by simpa using ih c l2 m0 mrest (noAdjFreeB_of_cons h) hmid hm0⟩
    cases l1 with
    | nil => simp [hm0]
    | cons x2 l1' =>
      simp only [List.cons_append, List.head?_cons]
      rw [List.cons_append, noAdjFreeB_cons_eq] at h
      simp only [List.cons_append, List.head?_cons, Bool.and_eq_true] at h
      exact h.1

theorem searchAndSplit_preserves_noAdj (bs : List Block) (size : Nat)
    (h : noAdjFreeB bs = true) :
    noAdjFreeB (searchAndSplit bs size).1 = true := by
  cases hfb : findBestAux (sub64 size H) bs 0 none with
  | none => simpa [searchAndSplit, hfb] using h
  | some jc =>
    obtain ⟨j, c⟩ := jc
    obtain ⟨l1, l2, hbs, hj, ⟨hcsz, hcfree⟩, hall, hstrict⟩ :=
      findBestAux_start_spec (sub64 size H) bs 0 j c hfb
    have hj' : j = l1.length := by omega
    subst hj' hbs
    have hsuf : noAdjFreeB (c :: l2) = true := noAdjFreeB_of_append h
    have hl2 : noAdjFreeB l2 = true := noAdjFreeB_of_cons hsuf
    have hl2hd : ∀ y ∈ l2.head?, ¬ y.status = Status.FREE := by
      intro y hy
      cases l2 with
      | nil => simp at hy
      | cons z l2' =>
        simp only [List.head?_cons, Option.mem_def, Option.some.injEq] at hy
        subst hy
        rw [noAdjFreeB_cons_eq] at hsuf
        simp only [List.head?_cons, Bool.and_eq_true, Bool.not_eq_true',
          decide_eq_false_iff_not] at hsuf
        intro hzf
        exact hsuf.1 ⟨hcfree, hzf⟩
    have hl2c : ∀ x : Block, x.status = Status.ALLOC →
        noAdjFreeB (x :: l2) = true := by
      intro x hx
      rw [noAdjFreeB_cons_eq, Bool.and_eq_true]
      refine ⟨?_, hl2⟩
      cases hl2h : l2.head? with
      | none => rfl
      | some z => simp [hx]
    simp only [searchAndSplit, hfb]
    by_cases hsplit : align64 1 + size ≤ c.size
    · rw [if_pos hsplit, take_len_append, drop_len_succ_append]
      have hmid : noAdjFreeB
          (({ c with status := Status.ALLOC, size := sub64 size H } ::
            [{ addr := c.addr + size, size := c.size - size,
               status := Status.FREE, prev := some c.addr }]) ++ l2) =
            true := by
        rw [List.cons_append, noAdjFreeB_cons_eq, Bool.and_eq_true]
        refine ⟨by simp, ?_⟩
        rw [List.singleton_append, noAdjFreeB_cons_eq, Bool.and_eq_true]
        refine ⟨?_, hl2⟩
        cases hl2h : l2.head? with
        | none => rfl
        | some z =>
          have := hl2hd z (by simp [hl2h])
          simp [this]
      have hrepl := noAdjFreeB_mid_replace l1 c l2 _ _ h hmid (by simp)
      simpa using hrepl
    · rw [if_neg hsplit, set_len_append]
      have hmid : noAdjFreeB
          (({ c with status := Status.ALLOC } :: ([] : List Block)) ++ l2) =
            true := by
        rw [List.cons_append, List.nil_append]
        exact hl2c _ rfl
      have hrepl := noAdjFreeB_mid_replace l1 c l2 _ [] h hmid (by simp)
      simpa using hrepl

theorem extendHeap_preserves_noAdj (st : State) (start : Option Nat)
    (size : Nat) (rs : Bool) (h : noAdjFreeB st.blocks = true) :
    noAdjFreeB (extendHeap st start size rs).1.blocks = true := by
  unfold extendHeap
  split
  · exact h
  · split
    · exact h
    · split
      · exact h
      · split
        · exact noAdjFreeB_set_nonfree st.blocks _ _ h (by simp)
        · split
          · exact h
          · split
            · exact noAdjFreeB_set_nonfree st.blocks _ _ h (by simp)
            · exact h

theorem tryAll_noAdj (st : State) (size : Nat) :
    noAdjFreeB (tryAll st size).1.blocks = true := by
  unfold tryAll
  have h1 : noAdjFreeB (mergeGlobal st.blocks) = true := mergeGlobal_noAdj _
  have h2 : noAdjFreeB (searchAndSplit (mergeGlobal st.blocks) size).1 = true :=
    searchAndSplit_preserves_noAdj _ _ h1
  cases hsr : (searchAndSplit (mergeGlobal st.blocks) size).2 with
  | some a => simpa [hsr] using h2
  | none =>
    simp only [hsr]
    exact extendHeap_preserves_noAdj _ _ _ _ h2

theorem blockAt_append (l1 l2 : List Block) (b : Block)
    (h : ∀ x ∈ l1, x.addr ≠ b.addr) :
    blockAt (l1 ++ b :: l2) b.addr = some b := by
  induction l1 with
  | nil => simp [blockAt]
  | cons x l1 ih =>
    rw [List.cons_append]
    unfold blockAt
    rw [List.find?_cons]
    have hx : ¬ x.addr = b.addr := h x (by simp)
    simp only [hx, decide_False]
    exact ih (fun y hy => h y (by simp [hy]))

theorem findIdx?_addr_append :
    ∀ (l1 l2 : List Block) (b : Block) (s : Nat),
      (∀ x ∈ l1, x.addr ≠ b.addr) →
      List.findIdx? (fun y => y.addr = b.addr) (l1 ++ b :: l2) s =
        some (s + l1.length) := by
  intro l1
  induction l1 with
  | nil =>
    intro l2 b s _
    simp [List.findIdx?_cons]
  | cons x l1 ih =>
    intro l2 b s h
    rw [List.cons_append, List.findIdx?_cons]
    have hx : ¬ x.addr = b.addr := h x (by simp)
    simp only [hx, decide_False, if_false, ite_false, Bool.false_eq_true]
    rw [ih l2 b (s + 1) (fun y hy => h y (by simp [hy]))]
    simp only [List.length_cons, Option.some.injEq]
    omega

theorem idxOfAddr_append (l1 l2 : List Block) (b : Block)
    (h : ∀ x ∈ l1, x.addr ≠ b.addr) :
    idxOfAddr (l1 ++ b :: l2) b.addr = some l1.length := by
  unfold idxOfAddr
  simpa using findIdx?_addr_append l1 l2 b 0 h

theorem getElem_append_mid (l1 l2 : List Block) (b : Block) :
    (l1 ++ b :: l2)[l1.length]? = some b := by
  rw [List.getElem?_append_right (le_refl l1.length)]
  simp

theorem take_len_succ_append {α : Type} (l1 l2 : List α) (c : α) :
    (l1 ++ c :: l2).take (l1.length + 1) = l1 ++ [c] := by
  rw [show l1 ++ c :: l2 = (l1 ++ [c]) ++ l2 by simp,
    show l1.length + 1 = (l1 ++ [c]).length by simp]
  exact List.take_left _ _

theorem prevLinkedB_decomp :
    ∀ (l1 : List Block) (pa : Option Nat) (b : Block) (l2 : List Block),
      prevLinkedB pa (l1 ++ b :: l2) = true →
      b.prev = (match l1.getLast? with
                | none => pa
                | some t => some t.addr) := by
  intro l1
  induction l1 with
  | nil =>
    intro pa b l2 h
    rw [List.nil_append] at h
    unfold prevLinkedB at h
    rw [Bool.and_eq_true, decide_eq_true_eq] at h
    exact h.1
  | cons x l1 ih =>
    intro pa b l2 h
    rw [List.cons_append] at h
    unfold prevLinkedB at h
    rw [Bool.and_eq_true] at h
    have := ih (some x.addr) b l2 h.2
    cases hgl : l1.getLast? with
    | none =>
      have hl1 : l1 = [] := List.getLast?_eq_none_iff.mp hgl
      subst hl1
      simpa using this
    | some t =>
      rw [hgl] at this
      have : (x :: l1).getLast? = some t := by
        rw [List.getLast?_cons, hgl]
        rfl
      simp_all

/-- Under the doubly-linked-list invariant and address uniqueness,
the three pointer writes of `deleteBlock` unlink exactly the chosen
node, handing its `prev` field to its old successor. -/
theorem deleteBlock_wf (l1 l2 : List Block) (b : Block)
    (hwf : prevLinkedB none (l1 ++ b :: l2) = true)
    (hpw : List.Pairwise (fun x y => x.addr ≠ y.addr) (l1 ++ b :: l2)) :
    deleteBlock (l1 ++ b :: l2) b.addr = l1 ++ updPrevHd b.prev l2 := by
  have hne1 : ∀ x ∈ l1, x.addr ≠ b.addr := by
    intro x hx
    exact ((List.pairwise_append.mp hpw).2.2 x hx b (by simp))
  have hidx : idxOfAddr (l1 ++ b :: l2) b.addr = some l1.length :=
    idxOfAddr_append l1 l2 b hne1
  have hget : (l1 ++ b :: l2)[l1.length]? = some b :=
    getElem_append_mid l1 l2 b
  have htake : (l1 ++ b :: l2).take (l1.length + 1) = l1 ++ [b] :=
    take_len_succ_append l1 l2 b
  have hdrop : (l1 ++ b :: l2).drop (l1.length + 1) = l2 :=
    drop_len_succ_append l1 l2 b
  have hbs1 : (l1 ++ b :: l2).take (l1.length + 1) ++
      updPrevHd b.prev ((l1 ++ b :: l2).drop (l1.length + 1)) =
      l1 ++ b :: updPrevHd b.prev l2 := by
    rw [htake, hdrop]
    simp
  rcases List.eq_nil_or_concat l1 with hnil | ⟨l1', tl, hcat⟩
  · subst hnil
    have hbp : b.prev = none := by
      have := prevLinkedB_decomp [] none b l2 hwf
      simpa using this
    simp only [deleteBlock, hidx, hget, hbs1]
    simp [hbp]
  · rw [List.concat_eq_append] at hcat
    have hbp : b.prev = some tl.addr := by
      have := prevLinkedB_decomp l1 none b l2 hwf
      rw [hcat] at this
      simpa using this
    have hlen : l1.length ≠ 0 := by
      subst hcat; simp
    have hne2 : ∀ x ∈ l1', x.addr ≠ tl.addr := by
      intro x hx
      have hpw1 : List.Pairwise (fun x y => x.addr ≠ y.addr) l1 :=
        (List.pairwise_append.mp hpw).1
      rw [hcat, List.pairwise_append] at hpw1
      exact hpw1.2.2 x hx tl (by simp)
    have hidx2 : idxOfAddr (l1 ++ b :: updPrevHd (some tl.addr) l2) tl.addr
        = some l1'.length := by
      have hform : l1 ++ b :: updPrevHd (some tl.addr) l2 =
          l1' ++ tl :: (b :: updPrevHd (some tl.addr) l2) := by
        rw [hcat]; simp
      rw [hform]
      exact idxOfAddr_append l1' _ tl hne2
    have htake2 : (l1 ++ b :: updPrevHd (some tl.addr) l2).take
        (l1'.length + 1) = l1 := by
      have hform : l1 ++ b :: updPrevHd (some tl.addr) l2 =
          l1' ++ tl :: (b :: updPrevHd (some tl.addr) l2) := by
        rw [hcat]; simp
      rw [hform, take_len_succ_append, ← hcat]
    have hdrop2 : (l1 ++ b :: updPrevHd (some tl.addr) l2).drop
        (l1.length + 1) = updPrevHd (some tl.addr) l2 :=
      drop_len_succ_append l1 _ b
    have hbs2 : (l1 ++ b :: l2).take (l1.length + 1) ++
        updPrevHd (some tl.addr) ((l1 ++ b :: l2).drop (l1.length + 1)) =
        l1 ++ b :: updPrevHd (some tl.addr) l2 := by
      rw [htake, hdrop]
      simp
    simp only [deleteBlock, hidx, hget, if_neg hlen, hbp, hbs2, hidx2,
      htake2, hdrop2]

/-- C1 (counterexample): on a fresh process, two successive
`os_malloc(100)` do NOT cause only one `SBRK`, and the second pointer
is NOT `base + H + align(100) + H`: the first call hands the whole
preallocated slab to the caller as an `ALLOC` block, so the second
call finds no free block and issues a second `SBRK`; its pointer is
`base + ARENA_PREALLOC + H` (here `base = 0`). -/
theorem malloc_twice_counterexample :
    sbrkCount (os_malloc (os_malloc (initState 0) 100).1 100).1.events
        = 2 ∧
    (os_malloc (os_malloc (initState 0) 100).1 100).2
        = some (0 + mmapThreshold + H) ∧
    (os_malloc (os_malloc (initState 0) 100).1 100).2
        ≠ some (0 + H + align64 100 + H) := by
  decide

/-- C1 (amended): on a fresh process, two successive `os_malloc(100)`
issue two `SBRK`s — the preallocation of `ARENA_PREALLOC` bytes and a
fresh block of `align(100) + H` bytes — and the second call returns
`base + ARENA_PREALLOC + H`. -/
theorem malloc_twice_two_sbrks (base : Nat) :
    (os_malloc (os_malloc (initState base) 100).1 100).1.events
        = [Event.sbrkE mmapThreshold, Event.sbrkE (align64 100 + H)] ∧
    (os_malloc (os_malloc (initState base) 100).1 100).2
        = some (base + mmapThreshold + H) := by
  simp [os_malloc, initState, allocateSbrk, tryAll, mergeGlobal,
    mergeGlobalFuel, searchAndSplit, findBestAux, extendHeap, headAddr,
    idxOfAddr, insertInList, align64, sub64, H, w64, mmapThreshold,
    pageSize, addEvent, List.findIdx?]

/-- C3 (code bug, failing input): after `os_malloc(50)`,
`os_malloc(50)`, `os_free(first)`, `os_malloc(30)` the registry's
third node still has `prev` pointing at the first node, although its
registry predecessor is the `FREE` remainder created by the split:
`searchAndSplit` splices the new node in without updating the old
successor's `prev`, so the doubly-linked-list invariant is broken
between public API calls. -/
theorem registry_prev_broken_after_split :
    (os_malloc
        (os_free (os_malloc (os_malloc (initState 0) 50).1 50).1 (some 32))
        30).1.blocks =
      [{ addr := 0, size := 32, status := Status.ALLOC, prev := none },
       { addr := 64, size := 130976, status := Status.FREE, prev := some 0 },
       { addr := 131072, size := 56, status := Status.ALLOC,
         prev := some 0 }] ∧
    ¬ wellFormedPrev
      (os_malloc
        (os_free (os_malloc (os_malloc (initState 0) 50).1 50).1 (some 32))
        30).1.blocks := by
  decide

/-- C5 (counterexample): `os_malloc(100)`, `os_malloc(50)`, freeing
both, then `os_malloc(200·1024)` — the last call is served by `MMAP`
and never coalesces, so immediately after it returns the registry
holds two adjacent `FREE` arena nodes. -/
theorem adjacent_free_after_mmap_malloc_counterexample :
    ¬ noAdjFree
      (os_malloc
        (os_free
          (os_free
            (os_malloc (os_malloc (initState 0) 100).1 50).1
            (some (0 + H)))
          (some (0 + mmapThreshold + H)))
        (200 * 1024)).1.blocks := by
  decide

/-- C6 (counterexample): a `MAPPED` block reallocated to the same
user size does not get the same pointer back: its stored `size`
includes the header, so the equal-size test `align(n) == size` fails
and the block is reallocated into a fresh mapping. -/
theorem realloc_same_size_mapped_counterexample :
    blockAt (os_malloc (initState 0) (200 * 1024)).1.blocks (2 ^ 44)
        = some { addr := 2 ^ 44, size := align64 (200 * 1024) + H,
                 status := Status.MAPPED, prev := none } ∧
    (os_malloc (initState 0) (200 * 1024)).2 = some (2 ^ 44 + H) ∧
    (os_realloc (os_malloc (initState 0) (200 * 1024)).1
        (os_malloc (initState 0) (200 * 1024)).2 (200 * 1024)).2
      ≠ (os_malloc (initState 0) (200 * 1024)).2 := by
  decide

/-- C7: a mapped block's stored `size` is the whole mapping length,
header included — exactly the value passed to `MMAP` — and `os_free`
on a `MAPPED` block unlinks it from the registry and issues `MUNMAP`
of exactly `block.size` bytes starting at the header. -/
theorem free_mapped_unlinks_and_munmaps :
    (∀ (st : State) (n : Nat),
      (allocateMmap st n).1.events = st.events ++ [Event.mmapE n] ∧
      (allocateMmap st n).2 = st.mmapNext ∧
      ∃ pv, (allocateMmap st n).1.blocks =
        st.blocks ++ [{ addr := st.mmapNext, size := n,
                        status := Status.MAPPED, prev := pv }]) ∧
    (∀ (st : State) (l1 l2 : List Block) (b : Block),
      st.blocks = l1 ++ b :: l2 → b.status = Status.MAPPED →
      wellFormedPrev st.blocks →
      List.Pairwise (fun x y => x.addr ≠ y.addr) st.blocks →
      os_free st (some (b.addr + H)) =
        { st with blocks := l1 ++ updPrevHd b.prev l2,
                  events := st.events ++
                    [Event.munmapE b.addr b.size] }) := by
  constructor
  · intro st n
    refine ⟨by simp [allocateMmap], by simp [allocateMmap], ?_⟩
    cases hgl : st.blocks.getLast? with
    | none =>
      refine ⟨none, ?_⟩
      simp [allocateMmap, insertInList, hgl, List.getLast?_eq_none_iff.mp hgl]
    | some tl =>
      exact ⟨some tl.addr, by simp [allocateMmap, insertInList, hgl]⟩
  · intro st l1 l2 b hbs hm hwf hpw
    have ha : b.addr + H - H = b.addr := by omega
    have hne1 : ∀ x ∈ l1, x.addr ≠ b.addr := by
      rw [hbs] at hpw
      intro x hx
      exact (List.pairwise_append.mp hpw).2.2 x hx b (by simp)
    have hfind : blockAt st.blocks b.addr = some b := by
      rw [hbs]
      exact blockAt_append l1 l2 b hne1
    have hdel : deleteBlock st.blocks b.addr = l1 ++ updPrevHd b.prev l2 := by
      rw [hbs]
      rw [hbs] at hwf hpw
      exact deleteBlock_wf l1 l2 b hwf hpw
    have hna : ¬ b.status = Status.ALLOC := by rw [hm]; intro hcon; cases hcon
    simp only [os_free, ha, hfind, hna, hm, if_false, ite_false, if_pos,
      ite_true, hdel, reduceCtorEq]

/-- Witness for C7: freeing the mapped block created by
`os_malloc(200·1024)` empties the registry and issues `MUNMAP` of
`align(200·1024) + H = 204832` bytes. -/
theorem free_mapped_unlinks_and_munmaps_witness :
    os_free (os_malloc (initState 0) (200 * 1024)).1 (some (2 ^ 44 + H)) =
      { (os_malloc (initState 0) (200 * 1024)).1 with
          blocks := [] ++ updPrevHd none [],
          events := (os_malloc (initState 0) (200 * 1024)).1.events ++
            [Event.munmapE (2 ^ 44) 204832] } :=
  free_mapped_unlinks_and_munmaps.2
    (os_malloc (initState 0) (200 * 1024)).1 [] []
    { addr := 2 ^ 44, size := 204832, status := Status.MAPPED, prev := none }
    (by decide) (by decide) (by decide)
    (by
      rw [show (os_malloc (initState 0) (200 * 1024)).1.blocks =
        [{ addr := 2 ^ 44, size := 204832, status := Status.MAPPED,
           prev := none }] from by decide]
      simp)

/-- C8 (code bug, failing input): `os_malloc(100)` hands out the tail
slab; `os_realloc(p, 131100)` grows it in place through the
tail-extension path, which sets `reallocType` before `extendHeap` and
returns on success without clearing it — the flag is still set after
the public call returns. -/
theorem reallocType_stale_after_tail_extend :
    (os_realloc (os_malloc (initState 0) 100).1
        (os_malloc (initState 0) 100).2 131100).2 = some (0 + H) ∧
    (os_realloc (os_malloc (initState 0) 100).1
        (os_malloc (initState 0) 100).2 131100).1.reallocType = true := by
  decide

/-- C2: on any state whose heap is not yet preallocated (in
particular a fresh process), an `os_malloc` whose total
`align(size) + H` is below `MMAP_THRESHOLD` issues exactly one `SBRK`
of `ARENA_PREALLOC = MMAP_THRESHOLD` bytes and appends a single
`ALLOC` block of size `MMAP_THRESHOLD - H` covering the whole slab,
returning its user pointer `brk + H`, regardless of the requested
size. -/
theorem first_small_malloc_returns_whole_slab (st : State) (size : Nat)
    (h0 : size ≠ 0) (hc : st.callocType = false)
    (hp : st.preallocHeap = false)
    (hsz : align64 size + H < mmapThreshold) :
    (os_malloc st size).2 = some (st.brk + H) ∧
    (os_malloc st size).1.events = st.events ++ [Event.sbrkE mmapThreshold] ∧
    (∃ pv, (os_malloc st size).1.blocks =
      st.blocks ++ [{ addr := st.brk, size := mmapThreshold - H,
                      status := Status.ALLOC, prev := pv }]) := by
  have hpam : (align64 size + H) % w64 = align64 size + H :=
    Nat.mod_eq_of_lt (lt_trans hsz mmapThreshold_lt_w64)
  have hlt : ¬ mmapThreshold ≤ align64 size + H := by omega
  have hsub : sub64 mmapThreshold H = mmapThreshold - H := by decide
  simp only [os_malloc, hpam, h0, hc, hp, if_neg hlt, if_false, ite_false,
    ite_true, if_true, Bool.false_eq_true, allocateSbrk, hsub]
  refine ⟨by simp, by simp, ?_⟩
  cases hgl : st.blocks.getLast? with
  | none =>
    refine ⟨none, ?_⟩
    simp [insertInList, hgl, List.getLast?_eq_none_iff.mp hgl]
  | some tl =>
    exact ⟨some tl.addr, by simp [insertInList, hgl]⟩

/-- Witness for C2 at size 100 on a fresh process. -/
theorem first_small_malloc_returns_whole_slab_witness :
    (os_malloc (initState 0) 100).2 = some ((initState 0).brk + H) ∧
    (os_malloc (initState 0) 100).1.events =
      (initState 0).events ++ [Event.sbrkE mmapThreshold] ∧
    (∃ pv, (os_malloc (initState 0) 100).1.blocks =
      (initState 0).blocks ++
        [{ addr := (initState 0).brk, size := mmapThreshold - H,
           status := Status.ALLOC, prev := pv }]) :=
  first_small_malloc_returns_whole_slab (initState 0) 100 (by decide)
    (by decide) (by decide) (by decide)

/-- C9: `os_realloc` dispatches its degenerate cases in order: size
zero frees the pointer and returns null; then a null pointer behaves
exactly as `os_malloc`; then a `FREE` block yields null with the
state unmodified. -/
theorem os_realloc_degenerate_dispatch :
    (∀ st p, os_realloc st p 0 = (os_free st p, none)) ∧
    (∀ st n, n ≠ 0 → os_realloc st none n = os_malloc st n) ∧
    (∀ st p b n, n ≠ 0 → blockAt st.blocks (p - H) = some b →
      b.status = Status.FREE → os_realloc st (some p) n = (st, none)) := by
  refine ⟨fun st p => by simp [os_realloc], fun st n hn => by simp [os_realloc, hn],
    fun st p b n hn hb hf => ?_⟩
  simp [os_realloc, hn, hb, hf]

/-- Witness for C9: the three degenerate cases at concrete inputs
(the third on a state holding a freshly freed arena block). -/
theorem os_realloc_degenerate_dispatch_witness :
    os_realloc (initState 0) (some 32) 0 =
      (os_free (initState 0) (some 32), none) ∧
    os_realloc (initState 0) none 7 = os_malloc (initState 0) 7 ∧
    os_realloc (os_free (os_malloc (initState 0) 100).1 (some 32))
        (some 32) 50 =
      (os_free (os_malloc (initState 0) 100).1 (some 32), none) :=
  ⟨os_realloc_degenerate_dispatch.1 (initState 0) (some 32),
   os_realloc_degenerate_dispatch.2.1 (initState 0) 7 (by decide),
   os_realloc_degenerate_dispatch.2.2
     (os_free (os_malloc (initState 0) 100).1 (some 32)) 32
     { addr := 0, size := 131040, status := Status.FREE, prev := none }
     50 (by decide) (by decide) (by decide)⟩

/-- C5 (amended): immediately after any `os_malloc` call that takes
the arena-reuse path (heap already preallocated, request below the
threshold, so `tryAll` runs and coalesces first), no two
registry-adjacent nodes are both `FREE` — for any input registry,
even one left with adjacent free nodes by earlier frees. -/
theorem no_adjacent_free_after_arena_malloc (st : State) (size : Nat)
    (h0 : size ≠ 0) (hc : st.callocType = false)
    (hp : st.preallocHeap = true)
    (hsz : (align64 size + H) % w64 < mmapThreshold) :
    noAdjFree (os_malloc st size).1.blocks := by
  have hnle : ¬ mmapThreshold ≤ (align64 size + H) % w64 :=
    Nat.not_le_of_lt hsz
  have hpf : ¬ st.preallocHeap = false := by simp [hp]
  simp only [os_malloc, h0, hc, hp, if_neg hnle, Bool.false_eq_true,
    if_false, ite_false]
  rw [if_neg (by simp)]
  cases htr : (tryAll st ((align64 size + H) % w64)).2 with
  | some a => simpa [htr] using tryAll_noAdj st ((align64 size + H) % w64)
  | none =>
    simp only [htr]
    unfold noAdjFree
    exact insertInList_noAdj (tryAll_noAdj st _) (by simp)

/-- Witness for C5 (amended): an arena-path `os_malloc(30)` on a
registry holding two adjacent `FREE` blocks coalesces and splits,
leaving no adjacent `FREE` pair. -/
theorem no_adjacent_free_after_arena_malloc_witness :
    noAdjFree (os_malloc
      { blocks := [{ addr := 0, size := 131040, status := Status.FREE,
                     prev := none },
                   { addr := 131072, size := 56, status := Status.FREE,
                     prev := some 0 }],
        brk := 131160, mmapNext := 2 ^ 44, preallocHeap := true,
        callocType := false, reallocType := false, events := [] }
      30).1.blocks :=
  no_adjacent_free_after_arena_malloc _ 30 (by decide) (by decide)
    (by decide) (by decide)

/-- C6 (amended): for arena (`ALLOC`) blocks — whose stored `size` is
at least the aligned user size the pointer was handed out for —
`os_realloc` with the same user size returns the pointer unchanged
(equal aligned payload returns at once; a larger stored size takes
the shrink-in-place path which also returns the same pointer).
`MAPPED` blocks are excluded: they get a fresh mapping. -/
theorem realloc_same_size_arena_returns_same_ptr
    (st : State) (a : Nat) (b : Block) (n : Nat)
    (hn : n ≠ 0) (hb : blockAt st.blocks a = some b)
    (hst : b.status = Status.ALLOC) (hsz : align64 n ≤ b.size) :
    (os_realloc st (some (a + H)) n).2 = some (a + H) := by
  have ha : a + H - H = a := by omega
  by_cases heq : align64 n = b.size
  · simp [os_realloc, hn, ha, hb, hst, heq]
  · have hlt : align64 n < b.size := lt_of_le_of_ne hsz heq
    simp [os_realloc, hn, ha, hb, hst, heq, hlt, Nat.not_le_of_lt hlt]

/-- Witness for C6 (amended): reallocating the first-slab block to
its original user size returns the same pointer. -/
theorem realloc_same_size_arena_returns_same_ptr_witness :
    (os_realloc (os_malloc (initState 0) 100).1 (some (0 + H)) 100).2 =
      some (0 + H) :=
  realloc_same_size_arena_returns_same_ptr
    (os_malloc (initState 0) 100).1 0
    { addr := 0, size := 131040, status := Status.ALLOC, prev := none }
    100 (by decide) (by decide) (by decide) (by decide)

/-- C10: `os_calloc` multiplies `nmemb * size` in `size_t` with no
overflow check: with `nmemb = 2^63 + 1` and `size = 2` the
mathematical product exceeds the `size_t` range, yet `os_calloc`
returns a non-null pointer whose zeroed payload is
`align((nmemb * size) mod 2^64) = 8` bytes, far smaller than the
mathematical product. -/
theorem os_calloc_overflow_wraps :
    2 ^ 64 ≤ (2 ^ 63 + 1) * 2 ∧
    (os_calloc (initState 0) (2 ^ 63 + 1) 2).2 = some (0 + H) ∧
    (os_calloc (initState 0) (2 ^ 63 + 1) 2).1.events =
      [Event.sbrkE mmapThreshold,
       Event.memsetE H (align64 (((2 ^ 63 + 1) * 2) % w64))] ∧
    align64 (((2 ^ 63 + 1) * 2) % w64) < (2 ^ 63 + 1) * 2 := by
  decide

/-- C4: `searchAndSplit`, given a total budget `size`
(`requested_total`), selects among the `FREE` nodes with
`size ≥ requested_total - H` the one of smallest size, ties broken by
first-encountered in one walk from the head; when
`chosen.size ≥ align(1) + requested_total` it splices a new `FREE`
node at `chosen_start + requested_total` of size
`chosen.size - requested_total` in after the chosen node and shrinks
the chosen node to `requested_total - H`; with no eligible node it
returns null (registry unchanged). -/
theorem searchAndSplit_best_fit_spec (bs : List Block) (size : Nat)
    (hH : H ≤ size) (hw : size < w64) :
    ((searchAndSplit bs size).2 = none →
      (searchAndSplit bs size).1 = bs ∧
      ∀ b ∈ bs, b.status = Status.FREE → b.size < size - H) ∧
    (∀ a, (searchAndSplit bs size).2 = some a →
      ∃ l1 c l2, bs = l1 ++ c :: l2 ∧ c.addr = a ∧
        c.status = Status.FREE ∧ size - H ≤ c.size ∧
        (∀ b ∈ bs, b.status = Status.FREE → size - H ≤ b.size →
          c.size ≤ b.size) ∧
        (∀ b ∈ l1, b.status = Status.FREE → size - H ≤ b.size →
          c.size < b.size) ∧
        (searchAndSplit bs size).1 =
          (if align64 1 + size ≤ c.size then
            l1 ++ { c with status := Status.ALLOC, size := size - H } ::
              { addr := c.addr + size, size := c.size - size,
                status := Status.FREE, prev := some c.addr } :: l2
          else l1 ++ { c with status := Status.ALLOC } :: l2)) := by
  have hreq : sub64 size H = size - H := sub64_eq_sub hH hw
  cases hfb : findBestAux (size - H) bs 0 none with
  | none =>
    have hs1 : searchAndSplit bs size = (bs, none) := by
      simp [searchAndSplit, hreq, hfb]
    refine ⟨fun _ => ⟨by rw [hs1], ?_⟩, fun a ha => ?_⟩
    · intro b hb hf
      have := findBestAux_none_all (size - H) bs 0 hfb b hb
      by_contra hle
      exact this ⟨Nat.le_of_not_lt hle, hf⟩
    · rw [hs1] at ha
      exact Option.noConfusion ha
  | some jc =>
    obtain ⟨j, c⟩ := jc
    obtain ⟨l1, l2, hbs, hj, ⟨hcsz, hcfree⟩, hall, hstrict⟩ :=
      findBestAux_start_spec (size - H) bs 0 j c hfb
    have hj' : j = l1.length := by omega
    have hs2 : (searchAndSplit bs size).2 = some c.addr := by
      simp only [searchAndSplit, hreq, hfb]
      split <;> rfl
    refine ⟨fun hnone => absurd (hs2 ▸ hnone) (by simp), fun a ha => ?_⟩
    have hac : a = c.addr := by
      rw [hs2] at ha
      exact (Option.some.inj ha).symm
    subst hac hj' hbs
    refine ⟨l1, c, l2, rfl, rfl, hcfree, hcsz,
      fun b hb hf hle => hall b hb ⟨hle, hf⟩,
      fun b hb hf hle => hstrict b hb ⟨hle, hf⟩, ?_⟩
    simp only [searchAndSplit, hreq, hfb]
    by_cases hsplit : align64 1 + size ≤ c.size
    · rw [if_pos hsplit, if_pos hsplit]
      rw [take_len_append, drop_len_succ_append]
    · rw [if_neg hsplit, if_neg hsplit]
      rw [set_len_append]

/-- Witness for C4: a registry holding a large `FREE` slab and an
`ALLOC` block; budget 72 chooses the slab and splits it. -/
theorem searchAndSplit_best_fit_spec_witness :
    ∃ (l1 : List Block) (c : Block) (l2 : List Block),
      ([{ addr := 0, size := 131040, status := Status.FREE,
          prev := (none : Option Nat) },
        { addr := 131072, size := 56, status := Status.ALLOC,
          prev := some 0 }] : List Block) = l1 ++ c :: l2 ∧
      c.addr = 0 ∧ c.status = Status.FREE ∧ 72 - H ≤ c.size ∧
      (∀ b ∈ ([{ addr := 0, size := 131040, status := Status.FREE,
                 prev := (none : Option Nat) },
               { addr := 131072, size := 56, status := Status.ALLOC,
                 prev := some 0 }] : List Block),
        b.status = Status.FREE → 72 - H ≤ b.size → c.size ≤ b.size) ∧
      (∀ b ∈ l1, b.status = Status.FREE → 72 - H ≤ b.size →
        c.size < b.size) ∧
      (searchAndSplit
        [{ addr := 0, size := 131040, status := Status.FREE,
           prev := (none : Option Nat) },
         { addr := 131072, size := 56, status := Status.ALLOC,
           prev := some 0 }] 72).1 =
        (if align64 1 + 72 ≤ c.size then
          l1 ++ { c with status := Status.ALLOC, size := 72 - H } ::
            { addr := c.addr + 72, size := c.size - 72,
              status := Status.FREE, prev := some c.addr } :: l2
        else l1 ++ { c with status := Status.ALLOC } :: l2) :=
  (searchAndSplit_best_fit_spec
    [{ addr := 0, size := 131040, status := Status.FREE, prev := none },
     { addr := 131072, size := 56, status := Status.ALLOC, prev := some 0 }]
    72 (by decide) (by decide)).2 0 (by decide)

end OSMem
